import Mathlib

/-!
Shallow embedding of the in-memory LRU cache of `retro-metadata`
(`src/cpp/src/cache/memory.cpp`, `src/cpp/include/retro_metadata/cache/memory.hpp`).

Modelling choices:
* The C++ class keeps a doubly linked list `lru_` of entries (head = least
  recently used, tail = most recently used) and a hash map `cache_` from key
  to the list node.  The map is a pure O(1) index into the list, so the state
  is modelled as the list alone; `cache_.find(key)` becomes
  `List.find? (fun e => e.key == key)` and erasing the indexed node becomes
  `List.eraseP (fun e => e.key == key)` (the index always points at the first,
  and in well-formed states only, node with that key).
* `std::chrono::steady_clock::now()` is modelled by passing the current time
  `now : Nat` explicitly to the time-dependent operations.  The
  default-constructed `time_point{}` sentinel meaning "never expires" is
  modelled as `none : Option Nat`.
* The opaque `std::any` payload is a type parameter `α`.
* `ttl` is `std::chrono::seconds`, a signed count, modelled as `Int`.
* The hit/miss counters (`int64_t`) are modelled as `Nat` (they are only ever
  incremented from zero).
-/

namespace RetroMetadata

/-- A cache entry: `MemoryCache::Entry` from `memory.hpp`
(`key`, `value`, `expires_at`); `expires_at = none` is the
`steady_clock::time_point{}` "never expires" sentinel. -/
structure Entry (α : Type) where
  key : String
  value : α
  expires_at : Option Nat
  deriving DecidableEq

/-- `MemoryCache::Entry::is_expired`: false for the "never" sentinel,
otherwise true iff `now` is strictly after the deadline. -/
def Entry.is_expired (e : Entry α) (now : Nat) : Bool :=
  match e.expires_at with
  | none => false
  | some d => decide (d < now)

/-- `CacheStats` from `cache.hpp`. -/
structure CacheStats where
  size : Int
  max_size : Int
  expired_count : Int
  hits : Nat
  misses : Nat
  deriving DecidableEq

/-- The state of a `MemoryCache`: configuration (`MemoryCacheOptions`),
the LRU-ordered entry list (head = least recently used), and the lifetime
hit/miss counters.  The key-to-node hash map is represented implicitly by
key search in `lru` (see the module docstring). -/
structure MemoryCache (α : Type) where
  max_size : Int
  default_ttl : Int
  lru : List (Entry α)
  hits : Nat
  misses : Nat
  deriving DecidableEq

namespace MemoryCache

/-- The predicate used for `cache_.find(key)` / node erasure by key. -/
def keyIs (key : String) (e : Entry α) : Bool :=
  e.key == key

/-- `cache_.find(key)` (dereferenced to the entry). -/
def findEntry (c : MemoryCache α) (key : String) : Option (Entry α) :=
  c.lru.find? (keyIs key)

/-- `MemoryCache::evict_if_needed`: while the list size is at least
`max_size`, drop the head (least recently used) entry; the loop breaks
when the list is empty. -/
def evictLoop (m : Int) : List (Entry α) → List (Entry α)
  | [] => []
  | e :: rest =>
    if m ≤ ((e :: rest).length : Int) then evictLoop m rest else e :: rest

/-- `MemoryCache::get`: miss (counter bumped) if absent; if found but
expired, the entry is erased and it is a miss; otherwise the entry is
spliced to the tail (most recently used), the hit counter is bumped and
the value returned. -/
def get (c : MemoryCache α) (now : Nat) (key : String) :
    Option α × MemoryCache α :=
  match c.lru.find? (keyIs key) with
  | none => (none, { c with misses := c.misses + 1 })
  | some e =>
    if e.is_expired now then
      (none, { c with lru := c.lru.eraseP (keyIs key), misses := c.misses + 1 })
    else
      (some e.value,
        { c with lru := c.lru.eraseP (keyIs key) ++ [e], hits := c.hits + 1 })

/-- The deadline computation at the top of `MemoryCache::set`: `ttl = 0`
is the "use default" sentinel; an effective ttl `≤ 0` leaves `expires_at`
at the "never" sentinel, otherwise the deadline is `now + ttl`. -/
def setDeadline (default_ttl : Int) (now : Nat) (ttl : Int) : Option Nat :=
  let teff := if ttl = 0 then default_ttl else ttl
  if 0 < teff then some (now + teff.toNat) else none

/-- `MemoryCache::set`: computes the deadline (see `setDeadline`); an
existing key is spliced to the tail and overwritten in place; a new key
triggers `evict_if_needed` and is then appended at the tail. -/
def set (c : MemoryCache α) (now : Nat) (key : String) (value : α)
    (ttl : Int) : MemoryCache α :=
  let expires_at := setDeadline c.default_ttl now ttl
  match c.lru.find? (keyIs key) with
  | some _ =>
    { c with lru := c.lru.eraseP (keyIs key) ++ [⟨key, value, expires_at⟩] }
  | none =>
    { c with lru := evictLoop c.max_size c.lru ++ [⟨key, value, expires_at⟩] }

/-- `MemoryCache::remove`: erases the entry if physically present (no
expiry check) and reports whether an erasure happened. -/
def remove (c : MemoryCache α) (key : String) : Bool × MemoryCache α :=
  match c.lru.find? (keyIs key) with
  | none => (false, c)
  | some _ => (true, { c with lru := c.lru.eraseP (keyIs key) })

/-- `MemoryCache::exists`: true iff the key is physically present and not
expired.  It takes only the shared (read) lock and mutates nothing, so it
is a pure observer of the state. -/
def existsKey (c : MemoryCache α) (now : Nat) (key : String) : Bool :=
  match c.lru.find? (keyIs key) with
  | none => false
  | some e => !e.is_expired now

/-- `MemoryCache::clear`: empties the entry store and index, leaving the
counters untouched. -/
def clear (c : MemoryCache α) : MemoryCache α :=
  { c with lru := [] }

/-- `MemoryCache::stats`: `size` is `lru_.size()` (all physically present
entries), `expired_count` counts the expired ones. -/
def stats (c : MemoryCache α) (now : Nat) : CacheStats :=
  { size := (c.lru.length : Int)
    max_size := c.max_size
    expired_count := ((c.lru.filter (fun e => e.is_expired now)).length : Int)
    hits := c.hits
    misses := c.misses }

/-- Insertion into the `std::unordered_map` result of `get_many`,
modelled as an association list with at most one binding per key. -/
def insertKV (m : List (String × α)) (k : String) (v : α) :
    List (String × α) :=
  match m with
  | [] => [(k, v)]
  | (k', v') :: rest =>
    if k' == k then (k, v) :: rest else (k', v') :: insertKV rest k v

/-- Lookup in the association-list model of the `get_many` result map. -/
def lookupKV (m : List (String × α)) (k : String) : Option α :=
  match m.find? (fun p => p.1 == k) with
  | none => none
  | some p => some p.2

/-- Loop body accumulator of `MemoryCache::get_many`. -/
def getManyAux (now : Nat) (keys : List String)
    (acc : List (String × α)) (c : MemoryCache α) :
    List (String × α) × MemoryCache α :=
  match keys with
  | [] => (acc, c)
  | key :: rest =>
    match get c now key with
    | (some v, c') => getManyAux now rest (insertKV acc key v) c'
    | (none, c') => getManyAux now rest acc c'

/-- `MemoryCache::get_many`: iterates `get` over the keys, collecting the
hits into the result map. -/
def get_many (c : MemoryCache α) (now : Nat) (keys : List String) :
    List (String × α) × MemoryCache α :=
  getManyAux now keys [] c

/-- Loop of `MemoryCache::delete_many`. -/
def deleteManyAux (keys : List String) (count : Int) (c : MemoryCache α) :
    Int × MemoryCache α :=
  match keys with
  | [] => (count, c)
  | key :: rest =>
    match remove c key with
    | (true, c') => deleteManyAux rest (count + 1) c'
    | (false, c') => deleteManyAux rest count c'

/-- `MemoryCache::delete_many`: iterates `remove`, counting successful
deletions. -/
def delete_many (c : MemoryCache α) (keys : List String) :
    Int × MemoryCache α :=
  deleteManyAux keys 0 c

/-- The number of live (physically present and unexpired) entries. -/
def liveCount (c : MemoryCache α) (now : Nat) : Nat :=
  (c.lru.filter (fun e => !e.is_expired now)).length

/-- Logical (expiry-aware) lookup: the value the cache holds for `key` if
the entry is present and not expired. -/
def lookupLive (c : MemoryCache α) (now : Nat) (key : String) : Option α :=
  match c.lru.find? (keyIs key) with
  | none => none
  | some e => if e.is_expired now then none else some e.value

/-- Well-formedness: the hash map `cache_` being a bijective index into
`lru_` forces all keys in the list to be distinct. -/
def Wf (c : MemoryCache α) : Prop :=
  (c.lru.map Entry.key).Nodup

/-- Spec-side `get_many`: "returns only the keys that were present and
unexpired (partial results, never an error for missing keys)", read off
the original state. -/
def get_many_spec (c : MemoryCache α) (now : Nat) (keys : List String) :
    List (String × α) :=
  keys.filterMap (fun k => (c.lookupLive now k).map (fun v => (k, v)))

/-- Spec-side `delete_many`: "the count of keys that were actually
present and removed". -/
def delete_many_spec (c : MemoryCache α) (keys : List String) : Int :=
  ((keys.filter (fun k => (c.lru.find? (keyIs k)).isSome)).length : Int)

theorem keyIs_iff {k : String} {e : Entry α} : keyIs k e = true ↔ e.key = k := by
  simp [keyIs]

theorem find?_eraseP_ne {l : List (Entry α)} {k k' : String} (h : k ≠ k') :
    (l.eraseP (keyIs k)).find? (keyIs k') = l.find? (keyIs k') := by
  induction l with
  | nil => rfl
  | cons e t ih =>
    by_cases hp : keyIs k e = true
    · rw [List.eraseP_cons_of_pos hp]
      have hn : ¬ keyIs k' e = true := by
        intro hc
        exact h ((keyIs_iff.mp hp) ▸ keyIs_iff.mp hc)
      rw [List.find?_cons_of_neg _ hn]
    · rw [List.eraseP_cons_of_neg hp]
      by_cases hq : keyIs k' e = true
      · rw [List.find?_cons_of_pos _ hq, List.find?_cons_of_pos _ hq]
      · rw [List.find?_cons_of_neg _ hq, List.find?_cons_of_neg _ hq, ih]

theorem find?_eraseP_self {l : List (Entry α)} {k : String}
    (hnd : (l.map Entry.key).Nodup) :
    (l.eraseP (keyIs k)).find? (keyIs k) = none := by
  induction l with
  | nil => rfl
  | cons e t ih =>
    rw [List.map_cons, List.nodup_cons] at hnd
    by_cases hp : keyIs k e = true
    · rw [List.eraseP_cons_of_pos hp, List.find?_eq_none]
      intro x hx hc
      exact hnd.1 (List.mem_map.mpr ⟨x, hx, by rw [keyIs_iff.mp hc, keyIs_iff.mp hp]⟩)
    · rw [List.eraseP_cons_of_neg hp, List.find?_cons_of_neg _ hp]
      exact ih hnd.2

theorem length_eraseP_find? {l : List (Entry α)} {p : Entry α → Bool}
    {e : Entry α} (h : l.find? p = some e) :
    (l.eraseP p).length + 1 = l.length := by
  have hm := List.mem_of_find?_eq_some h
  have hp := List.find?_some h
  rw [List.length_eraseP_of_mem hm hp]
  have h1 : 0 < l.length := List.length_pos.mpr (List.ne_nil_of_mem hm)
  omega

theorem filter_length_eraseP_find? {l : List (Entry α)} {p q : Entry α → Bool}
    {e : Entry α} (h : l.find? p = some e) :
    (l.filter q).length
      = ((l.eraseP p).filter q).length + (if q e = true then 1 else 0) := by
  induction l with
  | nil => simp at h
  | cons a t ih =>
    by_cases hp : p a = true
    · rw [List.find?_cons_of_pos _ hp] at h
      cases h
      rw [List.eraseP_cons_of_pos hp]
      by_cases hq : q e = true <;> simp [List.filter_cons, hq]
    · rw [List.find?_cons_of_neg _ hp] at h
      rw [List.eraseP_cons_of_neg hp]
      by_cases hq : q a = true
      · simp [List.filter_cons, hq, ih h]
        omega
      · simp [List.filter_cons, hq, ih h]

theorem evictLoop_nonpos {m : Int} (hm : m ≤ 0) :
    ∀ l : List (Entry α), evictLoop m l = []
  | [] => rfl
  | e :: rest => by
    have hc : m ≤ (((e :: rest).length : Nat) : Int) := by
      exact le_trans hm (by positivity)
    rw [evictLoop, if_pos hc]
    exact evictLoop_nonpos hm rest

theorem evictLoop_of_lt {m : Int} :
    ∀ {l : List (Entry α)}, ((l.length : Nat) : Int) < m → evictLoop m l = l := by
  intro l
  cases l with
  | nil => intro _; rfl
  | cons e rest =>
    intro h
    rw [evictLoop, if_neg (by omega)]

theorem evictLoop_length (m : Int) :
    ∀ l : List (Entry α),
      ((evictLoop m l).length : Int) < m ∨ evictLoop m l = []
  | [] => Or.inr rfl
  | e :: rest => by
    by_cases hc : m ≤ (((e :: rest).length : Nat) : Int)
    · rw [evictLoop, if_pos hc]
      exact evictLoop_length m rest
    · rw [evictLoop, if_neg hc]
      exact Or.inl (by omega)

theorem evictLoop_sublist (m : Int) :
    ∀ l : List (Entry α), (evictLoop m l).Sublist l
  | [] => List.Sublist.refl _
  | e :: rest => by
    by_cases hc : m ≤ (((e :: rest).length : Nat) : Int)
    · rw [evictLoop, if_pos hc]
      exact (evictLoop_sublist m rest).trans (List.sublist_cons_self e rest)
    · rw [evictLoop, if_neg hc]

theorem evictLoop_eq_tail {m : Int} {l : List (Entry α)}
    (h : ((l.length : Nat) : Int) = m) : evictLoop m l = l.tail := by
  cases l with
  | nil => rfl
  | cons e rest =>
    rw [evictLoop, if_pos (le_of_eq h.symm)]
    exact evictLoop_of_lt (by simp at h; omega)

theorem not_mem_map_eraseP_self {l : List (Entry α)} {k : String}
    (hnd : (l.map Entry.key).Nodup) :
    k ∉ (l.eraseP (keyIs k)).map Entry.key := by
  intro hmem
  obtain ⟨x, hx, hk⟩ := List.mem_map.mp hmem
  exact List.find?_eq_none.mp (find?_eraseP_self hnd) x hx (keyIs_iff.mpr hk)

theorem nodup_eraseP_map {l : List (Entry α)} {k : String}
    (hnd : (l.map Entry.key).Nodup) :
    ((l.eraseP (keyIs k)).map Entry.key).Nodup :=
  ((List.eraseP_sublist l).map Entry.key).nodup hnd

theorem nodup_append_singleton {l : List (Entry α)} {k : String} {e : Entry α}
    (hnd : (l.map Entry.key).Nodup) (hek : e.key = k)
    (hk : k ∉ l.map Entry.key) :
    ((l ++ [e]).map Entry.key).Nodup := by
  rw [List.map_append, List.nodup_append]
  refine ⟨hnd, List.nodup_singleton _, ?_⟩
  intro a ha hb
  rw [List.map_singleton, List.mem_singleton] at hb
  rw [hb, hek] at ha
  exact hk ha

theorem Wf_get {c : MemoryCache α} {now : Nat} {key : String} (h : Wf c) :
    Wf (get c now key).2 := by
  unfold Wf get
  cases hf : c.lru.find? (keyIs key) with
  | none => exact h
  | some e =>
    by_cases he : e.is_expired now = true
    · simpa [he] using nodup_eraseP_map (k := key) h
    · simp only [he, Bool.false_eq_true, if_false]
      exact nodup_append_singleton (nodup_eraseP_map h)
        (keyIs_iff.mp (List.find?_some hf)) (not_mem_map_eraseP_self h)

theorem Wf_set {c : MemoryCache α} {now : Nat} {key : String} {v : α}
    {ttl : Int} (h : Wf c) : Wf (set c now key v ttl) := by
  unfold Wf set
  cases hf : c.lru.find? (keyIs key) with
  | some e =>
    exact nodup_append_singleton (nodup_eraseP_map h) rfl
      (not_mem_map_eraseP_self h)
  | none =>
    refine nodup_append_singleton
      (((evictLoop_sublist c.max_size c.lru).map Entry.key).nodup h) rfl ?_
    intro hmem
    obtain ⟨x, hx, hk⟩ := List.mem_map.mp hmem
    exact List.find?_eq_none.mp hf x ((evictLoop_sublist c.max_size c.lru).mem hx)
      (keyIs_iff.mpr hk)

theorem Wf_remove {c : MemoryCache α} {key : String} (h : Wf c) :
    Wf (remove c key).2 := by
  unfold Wf remove
  cases hf : c.lru.find? (keyIs key) with
  | none => exact h
  | some e => exact nodup_eraseP_map h

/-- `get` returns exactly the expiry-aware logical lookup. -/
theorem get_fst (c : MemoryCache α) (now : Nat) (key : String) :
    (get c now key).1 = lookupLive c now key := by
  unfold get lookupLive
  cases hf : c.lru.find? (keyIs key) with
  | none => rfl
  | some e =>
    by_cases he : e.is_expired now = true <;> simp [he]

/-- `get` never changes the logical content of the cache: every key still
maps to the same live value afterwards. -/
theorem lookupLive_get (c : MemoryCache α) (now : Nat) (key : String)
    (h : Wf c) (k' : String) :
    lookupLive (get c now key).2 now k' = lookupLive c now k' := by
  unfold get
  cases hf : c.lru.find? (keyIs key) with
  | none => rfl
  | some e =>
    have hek : e.key = key := keyIs_iff.mp (List.find?_some hf)
    by_cases he : e.is_expired now = true
    · simp only [he, if_true]
      unfold lookupLive
      by_cases hk : key = k'
      · subst hk
        rw [find?_eraseP_self h, hf]
        simp [he]
      · simp only [find?_eraseP_ne hk]
    · simp only [he, Bool.false_eq_true, if_false]
      unfold lookupLive
      by_cases hk : key = k'
      · subst hk
        rw [List.find?_append, find?_eraseP_self h, hf]
        simp [keyIs, hek]
      · rw [List.find?_append, find?_eraseP_ne hk]
        have : List.find? (keyIs k') [e] = none := by
          simp [keyIs, hek]
          exact fun hc => hk hc
        rw [this, Option.or_none]

/-- `remove` does not disturb the physical entry of any other key. -/
theorem find?_remove_ne (c : MemoryCache α) (key : String) {k' : String}
    (hk : key ≠ k') :
    (remove c key).2.lru.find? (keyIs k') = c.lru.find? (keyIs k') := by
  unfold remove
  cases hf : c.lru.find? (keyIs key) with
  | none => rfl
  | some e => exact find?_eraseP_ne hk

/-- After `remove`, the removed key is physically absent (in a
well-formed state). -/
theorem find?_remove_self (c : MemoryCache α) (key : String) (h : Wf c) :
    (remove c key).2.lru.find? (keyIs key) = none := by
  unfold remove
  cases hf : c.lru.find? (keyIs key) with
  | none => exact hf
  | some e => exact find?_eraseP_self h

theorem set_lru_found {c : MemoryCache α} {key : String} {e : Entry α}
    (hf : c.lru.find? (keyIs key) = some e) (now : Nat) (v : α) (ttl : Int) :
    (set c now key v ttl).lru
      = c.lru.eraseP (keyIs key)
        ++ [⟨key, v, setDeadline c.default_ttl now ttl⟩] := by
  unfold set
  rw [hf]

theorem set_lru_new {c : MemoryCache α} {key : String}
    (hf : c.lru.find? (keyIs key) = none) (now : Nat) (v : α) (ttl : Int) :
    (set c now key v ttl).lru
      = evictLoop c.max_size c.lru
        ++ [⟨key, v, setDeadline c.default_ttl now ttl⟩] := by
  unfold set
  rw [hf]

theorem set_config_counters (c : MemoryCache α) (now : Nat) (key : String)
    (v : α) (ttl : Int) :
    (set c now key v ttl).hits = c.hits
      ∧ (set c now key v ttl).misses = c.misses
      ∧ (set c now key v ttl).max_size = c.max_size
      ∧ (set c now key v ttl).default_ttl = c.default_ttl := by
  cases hf : c.lru.find? (keyIs key) with
  | none =>
    unfold set; rw [hf]
    exact ⟨rfl, rfl, rfl, rfl⟩
  | some e =>
    unfold set; rw [hf]
    exact ⟨rfl, rfl, rfl, rfl⟩

/-- An entry freshly written by `set` is not expired at the time of the
write: a positive effective ttl puts the deadline at or after `now`, and
otherwise the entry never expires. -/
theorem is_expired_setDeadline (key : String) (v : α) (d : Int) (now : Nat)
    (ttl : Int) :
    Entry.is_expired ⟨key, v, setDeadline d now ttl⟩ now = false := by
  unfold setDeadline Entry.is_expired
  by_cases h : 0 < (if ttl = 0 then d else ttl)
  · simp only [h, if_true]
    simp
  · simp only [h, if_false]

theorem lookupKV_insertKV (m : List (String × α)) (key : String) (v : α)
    (k : String) :
    lookupKV (insertKV m key v) k = if k = key then some v else lookupKV m k := by
  induction m with
  | nil =>
    unfold insertKV lookupKV
    by_cases h : k = key
    · subst h; simp
    · rw [List.find?_cons_of_neg _ (by simp; exact fun hc => h hc.symm),
        if_neg h]
  | cons p rest ih =>
    by_cases hp : p.1 = key
    · rw [insertKV, if_pos (by simp [hp])]
      by_cases h : k = key
      · simp [lookupKV, h]
      · unfold lookupKV
        rw [List.find?_cons_of_neg _ (by simp; intro hc; exact h hc.symm),
          List.find?_cons_of_neg _ (by simp [hp]; intro hc; exact h hc.symm),
          if_neg h]
    · rw [insertKV, if_neg (by simp [hp])]
      by_cases hq : p.1 = k
      · unfold lookupKV
        rw [List.find?_cons_of_pos _ (by simp [hq]),
          List.find?_cons_of_pos _ (by simp [hq]),
          if_neg (fun hc => hp (hq.trans hc))]
      · unfold lookupKV
        rw [List.find?_cons_of_neg _ (by simp [hq]),
          List.find?_cons_of_neg _ (by simp [hq])]
        exact ih

theorem getManyAux_lookup (now : Nat) (c : MemoryCache α) :
    ∀ (keys : List String) (acc : List (String × α)) (c' : MemoryCache α),
      Wf c' → (∀ k, lookupLive c' now k = lookupLive c now k) →
      ∀ k, lookupKV (getManyAux now keys acc c').1 k
        = (if k ∈ keys then lookupLive c now k else none).or (lookupKV acc k)
  | [], acc, c', _, _, k => by simp [getManyAux]
  | key :: rest, acc, c', hwf, hpres, k => by
    have hfst : (get c' now key).1 = lookupLive c now key := by
      rw [get_fst]; exact hpres key
    have hwf2 : Wf (get c' now key).2 := Wf_get hwf
    have hpres2 : ∀ k2, lookupLive (get c' now key).2 now k2 = lookupLive c now k2 :=
      fun k2 => (lookupLive_get c' now key hwf k2).trans (hpres k2)
    rw [getManyAux]
    rcases hE : get c' now key with ⟨r, c2⟩
    rw [hE] at hfst hwf2 hpres2
    cases r with
    | some v =>
      simp only
      rw [getManyAux_lookup now c rest (insertKV acc key v) c2 hwf2 hpres2 k,
        lookupKV_insertKV]
      by_cases hk : k = key
      · subst hk
        rw [if_pos rfl]
        by_cases hm : k ∈ rest
        · simp [hm, ← hfst]
        · simp [hm, ← hfst]
      · rw [if_neg hk]
        by_cases hm : k ∈ rest
        · simp [hm, hk]
        · simp [hm, hk]
    | none =>
      simp only
      rw [getManyAux_lookup now c rest acc c2 hwf2 hpres2 k]
      by_cases hk : k = key
      · subst hk
        by_cases hm : k ∈ rest
        · simp [hm]
        · simp [hm, ← hfst]
      · by_cases hm : k ∈ rest
        · simp [hm, hk]
        · simp [hm, hk]

theorem lookupKV_get_many_spec (c : MemoryCache α) (now : Nat) :
    ∀ (keys : List String) (k : String),
      lookupKV (get_many_spec c now keys) k
        = if k ∈ keys then lookupLive c now k else none
  | [], k => by simp [get_many_spec, lookupKV]
  | key :: rest, k => by
    unfold get_many_spec
    rw [List.filterMap_cons]
    cases hL : lookupLive c now key with
    | none =>
      simp only [Option.map_none']
      rw [show (List.filterMap
        (fun k2 => (lookupLive c now k2).map fun v => (k2, v)) rest)
          = get_many_spec c now rest from rfl,
        lookupKV_get_many_spec c now rest k]
      by_cases hk : k = key
      · subst hk
        by_cases hm : k ∈ rest <;> simp [hm, hL]
      · by_cases hm : k ∈ rest <;> simp [hm, hk]
    | some v =>
      simp only [Option.map_some']
      rw [show (List.filterMap
        (fun k2 => (lookupLive c now k2).map fun v2 => (k2, v2)) rest)
          = get_many_spec c now rest from rfl]
      by_cases hk : k = key
      · subst hk
        unfold lookupKV
        rw [List.find?_cons_of_pos _ (by simp)]
        simp [hL]
      · have hstep : lookupKV ((key, v) :: get_many_spec c now rest) k
            = lookupKV (get_many_spec c now rest) k := by
          unfold lookupKV
          rw [List.find?_cons_of_neg _ (by simp; exact fun hc => hk hc.symm)]
        rw [hstep, lookupKV_get_many_spec c now rest k]
        by_cases hm : k ∈ rest <;> simp [hm, hk]

theorem deleteManyAux_count (c : MemoryCache α) :
    ∀ (keys : List String) (count : Int) (c' : MemoryCache α),
      Wf c' → keys.Nodup →
      (∀ k ∈ keys,
        (c'.lru.find? (keyIs k)).isSome = (c.lru.find? (keyIs k)).isSome) →
      (deleteManyAux keys count c').1
        = count + ((keys.filter
            (fun k => (c.lru.find? (keyIs k)).isSome)).length : Int)
  | [], count, c', _, _, _ => by simp [deleteManyAux]
  | key :: rest, count, c', hwf, hnd, hpres => by
    rw [List.nodup_cons] at hnd
    rw [deleteManyAux]
    cases hf : c'.lru.find? (keyIs key) with
    | none =>
      rw [remove, hf]
      simp only
      have hckey : (c.lru.find? (keyIs key)).isSome = false := by
        rw [← hpres key (List.mem_cons_self key rest), hf]; rfl
      rw [deleteManyAux_count c rest count c' hwf hnd.2
        (fun k hk => hpres k (List.mem_cons_of_mem key hk))]
      rw [List.filter_cons, hckey]
      simp
    | some e =>
      rw [remove, hf]
      simp only
      have hckey : (c.lru.find? (keyIs key)).isSome = true := by
        rw [← hpres key (List.mem_cons_self key rest), hf]; rfl
      have hwf2 : Wf ({ c' with lru := c'.lru.eraseP (keyIs key) } : MemoryCache α) :=
        nodup_eraseP_map hwf
      have hpres2 : ∀ k ∈ rest,
          (({ c' with lru := c'.lru.eraseP (keyIs key) } :
              MemoryCache α).lru.find? (keyIs k)).isSome
            = (c.lru.find? (keyIs k)).isSome := by
        intro k hk
        have hne : key ≠ k := fun hc => hnd.1 (hc ▸ hk)
        simp only
        rw [find?_eraseP_ne hne]
        exact hpres k (List.mem_cons_of_mem key hk)
      rw [deleteManyAux_count c rest (count + 1)
        { c' with lru := c'.lru.eraseP (keyIs key) } hwf2 hnd.2 hpres2]
      rw [List.filter_cons, hckey]
      simp only [List.length_cons, if_true]
      push_cast
      ring

/-- C1, counterexample: with configured max_size = 0, a single `set` on
the empty cache leaves one live entry, so the live entry count exceeds
the configured max_size — the degenerate configuration is not an
always-empty cache, because `evict_if_needed` runs before the new entry
is inserted. -/
theorem C1_counterexample :
    ¬ (((liveCount
          (set (⟨0, 0, [], 0, 0⟩ : MemoryCache Nat) 0 "a" 7 (-1)) 0 : Nat) : Int)
        ≤ (⟨0, 0, [], 0, 0⟩ : MemoryCache Nat).max_size) := by decide

/-- C1, amended: after any `set` on a state whose entry count is at most
max(max_size, 1), the entry count — and hence the live entry count — is
again at most max(max_size, 1).  For max_size ≥ 1 this gives the claimed
bound (count ≤ max_size); for max_size ≤ 0 eviction first empties the
store and `set` then appends the new entry, so the store holds exactly
one entry (the key just set) and `set` terminates normally rather than
leaving the cache always empty. -/
theorem C1_capacity_after_set (c : MemoryCache α) (now : Nat) (key : String)
    (v : α) (ttl : Int)
    (h : ((c.lru.length : Nat) : Int) ≤ max c.max_size 1) :
    (((set c now key v ttl).lru.length : Nat) : Int) ≤ max c.max_size 1
    ∧ ((liveCount (set c now key v ttl) now : Nat) : Int) ≤ max c.max_size 1
    ∧ (1 ≤ c.max_size →
        (((set c now key v ttl).lru.length : Nat) : Int) ≤ c.max_size)
    ∧ (c.max_size ≤ 0 → c.lru.find? (keyIs key) = none →
        (set c now key v ttl).lru.length = 1) := by
  have hM1 : (1 : Int) ≤ max c.max_size 1 := le_max_right _ _
  have hM2 : c.max_size ≤ max c.max_size 1 := le_max_left _ _
  have hlen : (((set c now key v ttl).lru.length : Nat) : Int) ≤ max c.max_size 1
      ∧ (1 ≤ c.max_size →
          (((set c now key v ttl).lru.length : Nat) : Int) ≤ c.max_size) := by
    cases hf : c.lru.find? (keyIs key) with
    | some e =>
      rw [set_lru_found hf, List.length_append]
      have h2 := length_eraseP_find? hf
      constructor
      · simp only [List.length_cons, List.length_nil]
        omega
      · intro h1
        have h3 := max_eq_left h1
        simp only [List.length_cons, List.length_nil]
        omega
    | none =>
      rw [set_lru_new hf, List.length_append]
      rcases evictLoop_length c.max_size c.lru with hE | hE
      · constructor
        · simp only [List.length_cons, List.length_nil]
          omega
        · intro h1
          simp only [List.length_cons, List.length_nil]
          omega
      · rw [hE]
        constructor
        · simp only [List.length_nil, List.length_cons]
          omega
        · intro h1
          simp only [List.length_nil, List.length_cons]
          omega
  have hlive : ((liveCount (set c now key v ttl) now : Nat) : Int)
      ≤ max c.max_size 1 := by
    have h4 : liveCount (set c now key v ttl) now
        ≤ (set c now key v ttl).lru.length := by
      unfold liveCount
      exact List.length_filter_le _ _
    have h5 := hlen.1
    omega
  refine ⟨hlen.1, hlive, hlen.2, ?_⟩
  intro hm hf
  rw [set_lru_new hf, evictLoop_nonpos hm]
  rfl

/-- C1 witness: the amended capacity bound applied to a concrete cache
with max_size = 2. -/
theorem C1_capacity_after_set_witness :
    ((((⟨2, 0, [], 0, 0⟩ : MemoryCache Nat).lru.length : Nat) : Int)
      ≤ max (⟨2, 0, [], 0, 0⟩ : MemoryCache Nat).max_size 1)
    ∧ ((((set (⟨2, 0, [], 0, 0⟩ : MemoryCache Nat) 0 "a" 5 7).lru.length : Nat) : Int)
        ≤ max (⟨2, 0, [], 0, 0⟩ : MemoryCache Nat).max_size 1
      ∧ ((liveCount (set (⟨2, 0, [], 0, 0⟩ : MemoryCache Nat) 0 "a" 5 7) 0 : Nat) : Int)
        ≤ max (⟨2, 0, [], 0, 0⟩ : MemoryCache Nat).max_size 1
      ∧ (1 ≤ (⟨2, 0, [], 0, 0⟩ : MemoryCache Nat).max_size →
          (((set (⟨2, 0, [], 0, 0⟩ : MemoryCache Nat) 0 "a" 5 7).lru.length : Nat) : Int)
            ≤ (⟨2, 0, [], 0, 0⟩ : MemoryCache Nat).max_size)
      ∧ ((⟨2, 0, [], 0, 0⟩ : MemoryCache Nat).max_size ≤ 0 →
          (⟨2, 0, [], 0, 0⟩ : MemoryCache Nat).lru.find? (keyIs "a") = none →
          (set (⟨2, 0, [], 0, 0⟩ : MemoryCache Nat) 0 "a" 5 7).lru.length = 1)) :=
  ⟨by decide, C1_capacity_after_set (⟨2, 0, [], 0, 0⟩ : MemoryCache Nat)
    0 "a" 5 7 (by decide)⟩

/-- C2: eviction is least-recently-used.  A successful (unexpired) `get`
splices the entry to the tail of the recency order; a `set` of an
existing key does the same; a `set` of a new key when the store is
exactly at capacity evicts the head (least recently used) entry; and in
the concrete scenario — max_size = 3, insert A, B, C, `get(A)`, then
`set(D)` — the surviving keys are C, A, D in that order, i.e. the evicted
key is B, not A or C. -/
theorem C2_lru_eviction (c : MemoryCache α) (now : Nat) (key : String)
    (v vA vB vC vD : α) (ttl : Int) (e : Entry α) :
    (c.lru.find? (keyIs key) = some e → e.is_expired now = false →
      (get c now key).2.lru = c.lru.eraseP (keyIs key) ++ [e])
    ∧ (c.lru.find? (keyIs key) = some e →
        (set c now key v ttl).lru = c.lru.eraseP (keyIs key)
          ++ [⟨key, v, setDeadline c.default_ttl now ttl⟩])
    ∧ (c.lru.find? (keyIs key) = none →
        ((c.lru.length : Nat) : Int) = c.max_size →
        (set c now key v ttl).lru = c.lru.tail
          ++ [⟨key, v, setDeadline c.default_ttl now ttl⟩])
    ∧ (set (get (set (set (set (⟨3, 0, [], 0, 0⟩ : MemoryCache α) 0 "A" vA (-1))
          0 "B" vB (-1)) 0 "C" vC (-1)) 0 "A").2 0 "D" vD (-1)).lru.map Entry.key
        = ["C", "A", "D"] := by
  refine ⟨?_, ?_, ?_, rfl⟩
  · intro hf he
    unfold get
    rw [hf]
    simp [he]
  · intro hf
    exact set_lru_found hf now v ttl
  · intro hf hlen
    rw [set_lru_new hf now v ttl, evictLoop_eq_tail hlen]

/-- C2 witness: the three conditional parts applied at concrete states
(a hit refreshing recency, an overwrite, and an eviction at capacity). -/
theorem C2_lru_eviction_witness :
    (get (⟨3, 0, [⟨"x", 5, none⟩], 0, 0⟩ : MemoryCache Nat) 0 "x").2.lru
      = (⟨3, 0, [⟨"x", 5, none⟩], 0, 0⟩ : MemoryCache Nat).lru.eraseP (keyIs "x")
        ++ [⟨"x", 5, none⟩]
    ∧ (set (⟨3, 0, [⟨"x", 5, none⟩], 0, 0⟩ : MemoryCache Nat) 0 "x" 9 (-1)).lru
      = (⟨3, 0, [⟨"x", 5, none⟩], 0, 0⟩ : MemoryCache Nat).lru.eraseP (keyIs "x")
        ++ [⟨"x", 9, none⟩]
    ∧ (set (⟨1, 0, [⟨"y", 5, none⟩], 0, 0⟩ : MemoryCache Nat) 0 "x" 9 (-1)).lru
      = (⟨1, 0, [⟨"y", 5, none⟩], 0, 0⟩ : MemoryCache Nat).lru.tail
        ++ [⟨"x", 9, none⟩] :=
  ⟨(C2_lru_eviction (⟨3, 0, [⟨"x", 5, none⟩], 0, 0⟩ : MemoryCache Nat) 0 "x"
      0 0 0 0 0 (-1) ⟨"x", 5, none⟩).1 (by decide) (by decide),
    (C2_lru_eviction (⟨3, 0, [⟨"x", 5, none⟩], 0, 0⟩ : MemoryCache Nat) 0 "x"
      9 0 0 0 0 (-1) ⟨"x", 5, none⟩).2.1 (by decide),
    (C2_lru_eviction (⟨1, 0, [⟨"y", 5, none⟩], 0, 0⟩ : MemoryCache Nat) 0 "x"
      9 0 0 0 0 (-1) ⟨"y", 5, none⟩).2.2.1 (by decide) (by decide)⟩

/-- C3: an entry whose finite deadline is strictly in the past is
logically absent even while still physically present: `get` returns
absent, `exists` returns false, and the key never appears in a
`get_many` result. -/
theorem C3_expired_logically_absent (c : MemoryCache α) (now d : Nat)
    (key : String) (e : Entry α) (ks : List String)
    (hf : c.lru.find? (keyIs key) = some e)
    (hd : e.expires_at = some d) (hpast : d < now) :
    (get c now key).1 = none
    ∧ existsKey c now key = false
    ∧ (Wf c → lookupKV (get_many c now ks).1 key = none) := by
  have he : e.is_expired now = true := by
    unfold Entry.is_expired
    rw [hd]
    simp [hpast]
  have hll : lookupLive c now key = none := by
    unfold lookupLive
    rw [hf]
    simp [he]
  refine ⟨?_, ?_, ?_⟩
  · rw [get_fst]
    exact hll
  · unfold existsKey
    rw [hf]
    simp [he]
  · intro hwf
    unfold get_many
    rw [getManyAux_lookup now c ks [] c hwf (fun _ => rfl) key]
    by_cases hm : key ∈ ks <;> simp [hm, hll, lookupKV]

/-- C3 witness: a concrete cache holding an entry with deadline 3,
observed at time 4. -/
theorem C3_expired_logically_absent_witness :
    (get (⟨10, 0, [⟨"x", 5, some 3⟩], 0, 0⟩ : MemoryCache Nat) 4 "x").1 = none
    ∧ existsKey (⟨10, 0, [⟨"x", 5, some 3⟩], 0, 0⟩ : MemoryCache Nat) 4 "x" = false
    ∧ lookupKV (get_many (⟨10, 0, [⟨"x", 5, some 3⟩], 0, 0⟩ : MemoryCache Nat)
        4 ["x", "y"]).1 "x" = none := by
  have T := C3_expired_logically_absent
    (⟨10, 0, [⟨"x", 5, some 3⟩], 0, 0⟩ : MemoryCache Nat) 4 3 "x"
    ⟨"x", 5, some 3⟩ ["x", "y"] (by decide) (by decide) (by decide)
  exact ⟨T.1, T.2.1, T.2.2 (by unfold Wf; decide)⟩

/-- C4: `set`'s ttl handling.  `ttl = 0` substitutes the configured
default ttl; an effective ttl ≤ 0 stores the "never" sentinel, and such
an entry is expired at no time; a positive effective ttl stores the
deadline now + ttl, and the entry is expired at time t exactly when t is
strictly after that deadline; the entry `set` appends at the tail carries
exactly this deadline. -/
theorem C4_ttl_semantics (c : MemoryCache α) (now : Nat) (key : String)
    (v : α) (ttl : Int) :
    (ttl = 0 → setDeadline c.default_ttl now ttl
        = setDeadline c.default_ttl now c.default_ttl)
    ∧ ((if ttl = 0 then c.default_ttl else ttl) ≤ 0 →
        setDeadline c.default_ttl now ttl = none
        ∧ ∀ t : Nat,
            Entry.is_expired ⟨key, v, setDeadline c.default_ttl now ttl⟩ t = false)
    ∧ (0 < (if ttl = 0 then c.default_ttl else ttl) →
        setDeadline c.default_ttl now ttl
          = some (now + (if ttl = 0 then c.default_ttl else ttl).toNat)
        ∧ ∀ t : Nat,
            Entry.is_expired ⟨key, v, setDeadline c.default_ttl now ttl⟩ t
              = decide (now + (if ttl = 0 then c.default_ttl else ttl).toNat < t))
    ∧ (set c now key v ttl).lru.getLast?
        = some ⟨key, v, setDeadline c.default_ttl now ttl⟩ := by
  refine ⟨?_, ?_, ?_, ?_⟩
  · intro h0
    by_cases hd : c.default_ttl = 0 <;> simp [setDeadline, h0, hd]
  · intro hle
    have hD : setDeadline c.default_ttl now ttl = none := by
      unfold setDeadline
      simp only
      rw [if_neg (not_lt.mpr hle)]
    exact ⟨hD, fun t => by simp [Entry.is_expired, hD]⟩
  · intro hpos
    have hD : setDeadline c.default_ttl now ttl
        = some (now + (if ttl = 0 then c.default_ttl else ttl).toNat) := by
      unfold setDeadline
      simp only
      rw [if_pos hpos]
    exact ⟨hD, fun t => by simp [Entry.is_expired, hD]⟩
  · cases hf : c.lru.find? (keyIs key) with
    | some e =>
      rw [set_lru_found hf, List.getLast?_concat]
    | none =>
      rw [set_lru_new hf, List.getLast?_concat]

/-- C4 witness: the sentinel branch with a positive default (ttl = 0,
default 5, at time 10), a never-expiring negative ttl, and a finite
deadline, each applied at a concrete cache. -/
theorem C4_ttl_semantics_witness :
    (setDeadline 5 10 0 = setDeadline 5 10 5)
    ∧ (setDeadline 5 10 (-2) = none
      ∧ ∀ t : Nat, Entry.is_expired (⟨"k", (3 : Nat), setDeadline 5 10 (-2)⟩ : Entry Nat) t
          = false)
    ∧ (setDeadline 5 10 7 = some 17
      ∧ ∀ t : Nat, Entry.is_expired (⟨"k", (3 : Nat), setDeadline 5 10 7⟩ : Entry Nat) t
          = decide (17 < t))
    ∧ (set (⟨4, 5, [], 0, 0⟩ : MemoryCache Nat) 10 "k" 3 0).lru.getLast?
        = some ⟨"k", 3, setDeadline 5 10 0⟩ := by
  have T0 := C4_ttl_semantics (⟨4, 5, [], 0, 0⟩ : MemoryCache Nat) 10 "k" 3 0
  have T2 := C4_ttl_semantics (⟨4, 5, [], 0, 0⟩ : MemoryCache Nat) 10 "k" 3 (-2)
  have T7 := C4_ttl_semantics (⟨4, 5, [], 0, 0⟩ : MemoryCache Nat) 10 "k" 3 7
  exact ⟨T0.1 rfl, T2.2.1 (by decide), T7.2.2.1 (by decide), T0.2.2.2⟩

/-- C5, counterexample: `stats` computes `size` as the physical list
length, so a cache holding a single expired-but-unswept entry reports
size 1 while its live (unexpired) count is 0 — `size` is not the count of
unexpired entries only. -/
theorem C5_counterexample :
    ¬ ((stats (⟨10, 0, [⟨"a", 0, some 5⟩], 0, 0⟩ : MemoryCache Nat) 10).size
        = ((liveCount (⟨10, 0, [⟨"a", 0, some 5⟩], 0, 0⟩ : MemoryCache Nat)
            10 : Nat) : Int)) := by decide

/-- C5, amended: `stats().size` counts all physically present entries —
expired-but-unswept entries included — while `expired_count` counts
exactly the expired ones, so the live entry count is the difference
`size - expired_count`. -/
theorem C5_stats_size_physical (c : MemoryCache α) (now : Nat) :
    (stats c now).size = ((c.lru.length : Nat) : Int)
    ∧ (stats c now).expired_count
      = (((c.lru.filter (fun e => e.is_expired now)).length : Nat) : Int)
    ∧ (stats c now).size - (stats c now).expired_count
      = ((liveCount c now : Nat) : Int)
    ∧ (stats c now).max_size = c.max_size
    ∧ (stats c now).hits = c.hits
    ∧ (stats c now).misses = c.misses := by
  refine ⟨rfl, rfl, ?_, rfl, rfl, rfl⟩
  unfold stats liveCount
  simp only
  have hpart := List.length_eq_length_filter_add
    (l := c.lru) (fun e => e.is_expired now)
  omega

/-- C6, counterexample: `exists` on an expired key does NOT remove the
entry.  In the source, `exists` takes only the shared (read) lock and
returns a Bool without mutating anything, which the embedding reflects by
`existsKey` having no state output; at this concrete input the key is
expired, `exists` reports absent, yet the entry is still physically
present in the store afterwards — refuting the part of the claim that
says the entry is removed on every such `exists` call. -/
theorem C6_counterexample :
    existsKey (⟨10, 0, [⟨"a", 0, some 5⟩], 0, 0⟩ : MemoryCache Nat) 10 "a" = false
    ∧ Entry.is_expired (⟨"a", 0, some 5⟩ : Entry Nat) 10 = true
    ∧ ((⟨10, 0, [⟨"a", 0, some 5⟩], 0, 0⟩ : MemoryCache Nat).lru.find?
        (keyIs "a")).isSome = true := by decide

/-- C6, amended: on `get` of an expired key the entry is removed as a
side effect, the call is a miss (miss counter incremented, hit counter
untouched, result absent, key physically gone afterwards); on `exists`
of an expired key the result is false but no removal happens (`exists`
is a pure observer under the shared lock). -/
theorem C6_lazy_expiration_on_get (c : MemoryCache α) (now : Nat)
    (key : String) (e : Entry α)
    (hf : c.lru.find? (keyIs key) = some e)
    (he : e.is_expired now = true) :
    (get c now key).1 = none
    ∧ (get c now key).2.lru = c.lru.eraseP (keyIs key)
    ∧ (get c now key).2.misses = c.misses + 1
    ∧ (get c now key).2.hits = c.hits
    ∧ (Wf c → (get c now key).2.lru.find? (keyIs key) = none)
    ∧ existsKey c now key = false := by
  have hB : get c now key
      = (none, { c with lru := c.lru.eraseP (keyIs key), misses := c.misses + 1 }) := by
    unfold get
    rw [hf]
    simp [he]
  refine ⟨by rw [hB], by rw [hB], by rw [hB], by rw [hB], ?_, ?_⟩
  · intro hwf
    rw [hB]
    exact find?_eraseP_self hwf
  · unfold existsKey
    rw [hf]
    simp [he]

/-- C6 witness: the amended lazy-expiration behavior at a concrete
expired entry (deadline 5, observed at time 10). -/
theorem C6_lazy_expiration_on_get_witness :
    (get (⟨10, 0, [⟨"a", 3, some 5⟩], 0, 0⟩ : MemoryCache Nat) 10 "a").1 = none
    ∧ (get (⟨10, 0, [⟨"a", 3, some 5⟩], 0, 0⟩ : MemoryCache Nat) 10 "a").2.lru
      = (⟨10, 0, [⟨"a", 3, some 5⟩], 0, 0⟩ : MemoryCache Nat).lru.eraseP (keyIs "a")
    ∧ (get (⟨10, 0, [⟨"a", 3, some 5⟩], 0, 0⟩ : MemoryCache Nat) 10 "a").2.misses = 1
    ∧ (get (⟨10, 0, [⟨"a", 3, some 5⟩], 0, 0⟩ : MemoryCache Nat) 10 "a").2.hits = 0
    ∧ (get (⟨10, 0, [⟨"a", 3, some 5⟩], 0, 0⟩ : MemoryCache Nat) 10 "a").2.lru.find?
        (keyIs "a") = none
    ∧ existsKey (⟨10, 0, [⟨"a", 3, some 5⟩], 0, 0⟩ : MemoryCache Nat) 10 "a" = false := by
  have T := C6_lazy_expiration_on_get
    (⟨10, 0, [⟨"a", 3, some 5⟩], 0, 0⟩ : MemoryCache Nat) 10 "a"
    ⟨"a", 3, some 5⟩ (by decide) (by decide)
  exact ⟨T.1, T.2.1, T.2.2.1, T.2.2.2.1, T.2.2.2.2.1 (by unfold Wf; decide),
    T.2.2.2.2.2⟩

/-- C7, counterexample: overwriting a key whose stored entry has already
expired revives it, so the live entry count grows from 0 to 1 — "the live
entry count is unchanged" fails when the pre-existing entry was
expired-but-unswept. -/
theorem C7_counterexample :
    ((⟨10, 0, [⟨"a", 0, some 5⟩], 0, 0⟩ : MemoryCache Nat).lru.find? (keyIs "a")).isSome
      = true
    ∧ ¬ (liveCount (set (⟨10, 0, [⟨"a", 0, some 5⟩], 0, 0⟩ : MemoryCache Nat)
          10 "a" 1 (-1)) 10
        = liveCount (⟨10, 0, [⟨"a", 0, some 5⟩], 0, 0⟩ : MemoryCache Nat) 10) := by
  decide

/-- C7, amended: a `set` on a physically present key replaces the entry
in place (new value and deadline, key spliced to the tail), keeps the
physical entry count unchanged, evicts nothing (every other entry
survives), and keeps the LIVE entry count unchanged provided the old
entry was itself unexpired; if the old entry had already expired the
live count instead grows by exactly one. -/
theorem C7_overwrite_in_place (c : MemoryCache α) (now : Nat) (key : String)
    (v : α) (ttl : Int) (e : Entry α)
    (hf : c.lru.find? (keyIs key) = some e) :
    (set c now key v ttl).lru
      = c.lru.eraseP (keyIs key) ++ [⟨key, v, setDeadline c.default_ttl now ttl⟩]
    ∧ (set c now key v ttl).lru.getLast?
      = some ⟨key, v, setDeadline c.default_ttl now ttl⟩
    ∧ (set c now key v ttl).lru.length = c.lru.length
    ∧ (∀ e2 ∈ c.lru, e2.key ≠ key → e2 ∈ (set c now key v ttl).lru)
    ∧ (e.is_expired now = false →
        liveCount (set c now key v ttl) now = liveCount c now)
    ∧ (e.is_expired now = true →
        liveCount (set c now key v ttl) now = liveCount c now + 1) := by
  have hlru := set_lru_found hf now v ttl
  have hlenE := length_eraseP_find? hf
  have hnew : (Entry.is_expired
      ⟨key, v, setDeadline c.default_ttl now ttl⟩ now) = false :=
    is_expired_setDeadline key v c.default_ttl now ttl
  have hcount := filter_length_eraseP_find?
    (q := fun e2 => !e2.is_expired now) hf
  refine ⟨hlru, ?_, ?_, ?_, ?_, ?_⟩
  · rw [hlru, List.getLast?_concat]
  · rw [hlru, List.length_append]
    simp only [List.length_cons, List.length_nil]
    omega
  · intro e2 h2 hk
    rw [hlru]
    refine List.mem_append_left _ ?_
    exact (List.mem_eraseP_of_neg
      (fun hc => hk (keyIs_iff.mp hc))).mpr h2
  · intro hlive
    unfold liveCount
    rw [hlru, List.filter_append, List.length_append]
    rw [List.filter_cons]
    simp only [hnew, Bool.not_false, if_true, List.filter_nil, List.length_cons,
      List.length_nil]
    rw [hcount]
    simp [hlive]
  · intro hexp
    unfold liveCount
    rw [hlru, List.filter_append, List.length_append]
    rw [List.filter_cons]
    simp only [hnew, Bool.not_false, if_true, List.filter_nil, List.length_cons,
      List.length_nil]
    rw [hcount]
    simp [hexp]

/-- C7 witness: overwrite of a live entry at a concrete cache with two
entries — entry replaced, order refreshed, counts preserved. -/
theorem C7_overwrite_in_place_witness :
    (set (⟨10, 0, [⟨"a", 1, none⟩, ⟨"b", 2, none⟩], 0, 0⟩ : MemoryCache Nat)
        0 "a" 9 (-1)).lru
      = (⟨10, 0, [⟨"a", 1, none⟩, ⟨"b", 2, none⟩], 0, 0⟩ : MemoryCache Nat).lru.eraseP
          (keyIs "a") ++ [⟨"a", 9, none⟩]
    ∧ (set (⟨10, 0, [⟨"a", 1, none⟩, ⟨"b", 2, none⟩], 0, 0⟩ : MemoryCache Nat)
        0 "a" 9 (-1)).lru.getLast? = some ⟨"a", 9, none⟩
    ∧ (set (⟨10, 0, [⟨"a", 1, none⟩, ⟨"b", 2, none⟩], 0, 0⟩ : MemoryCache Nat)
        0 "a" 9 (-1)).lru.length = 2
    ∧ ((⟨"b", 2, none⟩ : Entry Nat)
        ∈ (set (⟨10, 0, [⟨"a", 1, none⟩, ⟨"b", 2, none⟩], 0, 0⟩ : MemoryCache Nat)
          0 "a" 9 (-1)).lru)
    ∧ liveCount (set (⟨10, 0, [⟨"a", 1, none⟩, ⟨"b", 2, none⟩], 0, 0⟩ : MemoryCache Nat)
        0 "a" 9 (-1)) 0
      = liveCount (⟨10, 0, [⟨"a", 1, none⟩, ⟨"b", 2, none⟩], 0, 0⟩ : MemoryCache Nat) 0 := by
  have T := C7_overwrite_in_place
    (⟨10, 0, [⟨"a", 1, none⟩, ⟨"b", 2, none⟩], 0, 0⟩ : MemoryCache Nat)
    0 "a" 9 (-1) ⟨"a", 1, none⟩ (by decide)
  exact ⟨T.1, T.2.1, T.2.2.1, T.2.2.2.1 ⟨"b", 2, none⟩ (by decide) (by decide),
    T.2.2.2.2.1 (by decide)⟩

/-- C8: `clear` removes all entries unconditionally (the recency order
and index become empty, so `stats().size = 0` afterwards) while the hit
and miss counters retain their prior values; and no single-key operation
ever decreases either counter (`get` only increments one of them, `set`,
`remove` and `clear` leave both untouched), so the counters are monotone
over the lifetime of the instance. -/
theorem C8_clear_resets_content_not_counters (c : MemoryCache α) (now : Nat)
    (key : String) (v : α) (ttl : Int) :
    (clear c).lru = []
    ∧ (stats (clear c) now).size = 0
    ∧ (clear c).hits = c.hits
    ∧ (clear c).misses = c.misses
    ∧ (stats (clear c) now).hits = c.hits
    ∧ (stats (clear c) now).misses = c.misses
    ∧ c.hits ≤ (get c now key).2.hits
    ∧ c.misses ≤ (get c now key).2.misses
    ∧ (set c now key v ttl).hits = c.hits
    ∧ (set c now key v ttl).misses = c.misses
    ∧ (remove c key).2.hits = c.hits
    ∧ (remove c key).2.misses = c.misses := by
  have hget : c.hits ≤ (get c now key).2.hits
      ∧ c.misses ≤ (get c now key).2.misses := by
    unfold get
    cases hf : c.lru.find? (keyIs key) with
    | none => exact ⟨Nat.le_refl _, Nat.le_succ _⟩
    | some e =>
      by_cases he : e.is_expired now = true
      · simp only [he, if_true]
        exact ⟨Nat.le_refl _, Nat.le_succ _⟩
      · simp only [he, Bool.false_eq_true, if_false]
        exact ⟨Nat.le_succ _, Nat.le_refl _⟩
  have hrem : (remove c key).2.hits = c.hits
      ∧ (remove c key).2.misses = c.misses := by
    unfold remove
    cases hf : c.lru.find? (keyIs key) with
    | none => exact ⟨rfl, rfl⟩
    | some e => exact ⟨rfl, rfl⟩
  have hset := set_config_counters c now key v ttl
  exact ⟨rfl, rfl, rfl, rfl, rfl, rfl, hget.1, hget.2, hset.1, hset.2.1,
    hrem.1, hrem.2⟩

/-- C9: the bulk operations refine their spec-side single-key
descriptions.  `get_many` returns exactly the map sending each requested
key that is present and unexpired to its value (missing or expired keys
are simply omitted): pointwise, its result map agrees with the spec-side
`get_many_spec` built from the original state, and looking up any key in
the result gives its live value when the key was requested and nothing
otherwise.  `delete_many` returns the count of requested keys that were
actually present and removed. -/
theorem C9_bulk_ops_refinement (c : MemoryCache α) (now : Nat)
    (keys : List String) (hwf : Wf c) :
    (∀ k, lookupKV (get_many c now keys).1 k
        = lookupKV (get_many_spec c now keys) k)
    ∧ (∀ k, lookupKV (get_many c now keys).1 k
        = if k ∈ keys then lookupLive c now k else none)
    ∧ (keys.Nodup → (delete_many c keys).1 = delete_many_spec c keys) := by
  have hpt : ∀ k, lookupKV (get_many c now keys).1 k
      = if k ∈ keys then lookupLive c now k else none := by
    intro k
    unfold get_many
    rw [getManyAux_lookup now c keys [] c hwf (fun _ => rfl) k]
    simp [lookupKV]
  refine ⟨fun k => ?_, hpt, fun hnd => ?_⟩
  · rw [hpt k, lookupKV_get_many_spec]
  · unfold delete_many delete_many_spec
    rw [deleteManyAux_count c keys 0 c hwf hnd (fun _ _ => rfl)]
    ring

/-- C9 witness: the spec's "bulk partial results" test — requesting an
existing key and a missing key returns a map containing only the
existing key — plus the deletion count, at a concrete cache. -/
theorem C9_bulk_ops_refinement_witness :
    lookupKV (get_many (⟨10, 0, [⟨"a", 3, none⟩], 0, 0⟩ : MemoryCache Nat)
        0 ["a", "b"]).1 "a"
      = lookupKV (get_many_spec (⟨10, 0, [⟨"a", 3, none⟩], 0, 0⟩ : MemoryCache Nat)
        0 ["a", "b"]) "a"
    ∧ lookupKV (get_many (⟨10, 0, [⟨"a", 3, none⟩], 0, 0⟩ : MemoryCache Nat)
        0 ["a", "b"]).1 "a" = some 3
    ∧ lookupKV (get_many (⟨10, 0, [⟨"a", 3, none⟩], 0, 0⟩ : MemoryCache Nat)
        0 ["a", "b"]).1 "b" = none
    ∧ (delete_many (⟨10, 0, [⟨"a", 3, none⟩], 0, 0⟩ : MemoryCache Nat)
        ["a", "b"]).1
      = delete_many_spec (⟨10, 0, [⟨"a", 3, none⟩], 0, 0⟩ : MemoryCache Nat)
        ["a", "b"] := by
  have T := C9_bulk_ops_refinement
    (⟨10, 0, [⟨"a", 3, none⟩], 0, 0⟩ : MemoryCache Nat) 0 ["a", "b"]
    (by unfold Wf; decide)
  refine ⟨T.1 "a", ?_, ?_, T.2.2 (by decide)⟩
  · rw [T.2.1 "a"]
    decide
  · rw [T.2.1 "b"]
    decide

/-- C10: `remove` never consults the expiration deadline, so for a key
whose entry is physically present but expired it deletes the entry and
returns true, at the same moment at which `get` reports absent and
`exists` reports false for that key: `remove`'s Boolean reflects
physical, not logical, presence. -/
theorem C10_remove_ignores_expiry (c : MemoryCache α) (now d : Nat)
    (key : String) (e : Entry α)
    (hf : c.lru.find? (keyIs key) = some e)
    (hd : e.expires_at = some d) (hpast : d < now) :
    (remove c key).1 = true
    ∧ (remove c key).2.lru = c.lru.eraseP (keyIs key)
    ∧ (get c now key).1 = none
    ∧ existsKey c now key = false := by
  have he : e.is_expired now = true := by
    unfold Entry.is_expired
    rw [hd]
    simp [hpast]
  refine ⟨?_, ?_, ?_, ?_⟩
  · unfold remove
    rw [hf]
  · unfold remove
    rw [hf]
  · rw [get_fst]
    unfold lookupLive
    rw [hf]
    simp [he]
  · unfold existsKey
    rw [hf]
    simp [he]

/-- C10 witness: a concrete expired-but-unswept entry (deadline 5,
observed at time 10): `remove` returns true while `get`/`exists` report
absence. -/
theorem C10_remove_ignores_expiry_witness :
    (remove (⟨10, 0, [⟨"a", 3, some 5⟩], 0, 0⟩ : MemoryCache Nat) "a").1 = true
    ∧ (remove (⟨10, 0, [⟨"a", 3, some 5⟩], 0, 0⟩ : MemoryCache Nat) "a").2.lru
      = (⟨10, 0, [⟨"a", 3, some 5⟩], 0, 0⟩ : MemoryCache Nat).lru.eraseP (keyIs "a")
    ∧ (get (⟨10, 0, [⟨"a", 3, some 5⟩], 0, 0⟩ : MemoryCache Nat) 10 "a").1 = none
    ∧ existsKey (⟨10, 0, [⟨"a", 3, some 5⟩], 0, 0⟩ : MemoryCache Nat) 10 "a"
      = false :=
  C10_remove_ignores_expiry
    (⟨10, 0, [⟨"a", 3, some 5⟩], 0, 0⟩ : MemoryCache Nat) 10 5 "a"
    ⟨"a", 3, some 5⟩ (by decide) (by decide) (by decide)

end MemoryCache

end RetroMetadata
